import Mathlib

/-!
# oniwebsite_bk: language resolution, translation store and HTML hydration

A shallow embedding of the Go packages `middleware`, `services`, `handlers`
and of the root dispatchers of `cmd/server/main.go`, followed by theorems
about them.

Modelling conventions.

* A Go `string` is a byte sequence; here it is a `List Char`.  Every pattern
  the program searches for is ASCII, so searching a UTF-8 text for it byte by
  byte or character by character finds the same places.
* The standard-library functions the program calls (`strings.HasPrefix`,
  `strings.Index`, `strings.Contains`, `strings.Replace` with count 1, ...)
  are written out as list functions, following their documented behaviour.
* Libraries whose result the program only passes on (`language.Matcher`,
  `encoding/json`, `net/http` client, the file system) are parameters.
* A handler is a function from the request data it reads to the response it
  writes; a run-time panic (slice bounds) is the value `none`.
-/

set_option autoImplicit false

/-- Text as the program sees it: a sequence of characters. -/
abbrev Str := List Char

/-! ## The parts of Go's `strings` package the program uses -/

namespace Strings

/-- Go `strings.HasPrefix(s, pre)`. -/
def HasPrefix (s pre : Str) : Bool := pre.isPrefixOf s

/-- Go `strings.HasSuffix(s, suf)`. -/
def HasSuffix (s suf : Str) : Bool := suf.isSuffixOf s

/-- Go `strings.TrimSuffix(s, suf)`: `s` without the trailing `suf`, or `s`
itself when it does not end in `suf`. -/
def TrimSuffix (s suf : Str) : Str :=
  if HasSuffix s suf then s.take (s.length - suf.length) else s

/-- Position of the first occurrence of `sub` in `s`, if there is one. -/
def firstOcc (s sub : Str) : Option Nat :=
  if sub.isPrefixOf s then some 0
  else match s with
    | [] => none
    | _ :: cs => (firstOcc cs sub).map (· + 1)

/-- Go `strings.Index(s, sub)`: the index of the first occurrence, or `-1`. -/
def Index (s sub : Str) : Int :=
  match firstOcc s sub with
  | some i => (i : Int)
  | none => -1

/-- Go `strings.Contains(s, sub)`, which is `Index(s, sub) >= 0`. -/
def Contains (s sub : Str) : Bool := decide (0 ≤ Index s sub)

/-- Go `strings.Replace(s, old, new, 1)`: the first occurrence of `old`
replaced by `new`; `s` itself when `old` does not occur. -/
def Replace1 (s old new : Str) : Str :=
  if old.isPrefixOf s then new ++ s.drop old.length
  else match s with
    | [] => []
    | c :: cs => c :: Replace1 cs old new

/-- Go slice expression `s[lo:hi]`; `none` is the run-time panic raised when
the bounds are not `0 ≤ lo ≤ hi ≤ len(s)`. -/
def slice (s : Str) (lo hi : Int) : Option Str :=
  if 0 ≤ lo ∧ lo ≤ hi ∧ hi ≤ (s.length : Int) then
    some ((s.take hi.toNat).drop lo.toNat)
  else none

end Strings

/-! ## HTTP constants -/

/-- Go `http.StatusOK`. -/
def StatusOK : Nat := 200
/-- Go `http.StatusFound`. -/
def StatusFound : Nat := 302
/-- Go `http.StatusInternalServerError`. -/
def StatusInternalServerError : Nat := 500
/-- Go `http.StatusBadGateway`. -/
def StatusBadGateway : Nat := 502

/-! ## `internal/middleware/language_detector.go` -/

namespace Middleware

/-- What the middleware does with a request: either it calls the next handler
with the language stored in the request context under `CtxLanguageKey`, or it
answers itself with `http.Redirect` and does not call the next handler. -/
inductive Outcome where
  | next (lang : Str)
  | redirect (status : Nat) (location : Str)
  deriving DecidableEq

/-- The function wrapped by `LanguageDetectorMiddleware`.  `negotiate` stands
for `language.NewMatcher([en, pt, sv]).Match(language.Make(accept))` followed
by `tag.Base()` and `base.String()`: it maps the `Accept-Language` header
value to the base subtag of the matched language. -/
def LanguageDetectorMiddleware (negotiate : Str → Str) (path accept : Str) : Outcome :=
  -- 1. Check URL Prefix
  if Strings.HasPrefix path "/pt".toList then .next "pt".toList
  else if Strings.HasPrefix path "/sv".toList then .next "sv".toList
  else
    -- 2. Check Root Path for Redirection
    if path == "/".toList || path == "/index.html".toList then
      let langCode := negotiate accept
      if langCode == "pt".toList then .redirect StatusFound "/pt/".toList
      else if langCode == "sv".toList then .redirect StatusFound "/sv/".toList
      else .next "en".toList
    else
      -- Default to English
      .next "en".toList

end Middleware

/-! ## The root dispatchers of `cmd/server/main.go` -/

namespace Main

/-- The helper `strings_HasPrefix` of `main.go`:
`len(s) >= len(pre) && s[0:len(pre)] == pre`. -/
def strings_HasPrefix (s pre : Str) : Bool :=
  decide (pre.length ≤ s.length) && (s.take pre.length == pre)

/-- The handler a root dispatcher hands the request to. -/
inductive Destination where
  | translationAPI
  | hydratedHTML
  | devProxy
  | staticFile
  | notFound
  deriving DecidableEq

/-- The `rootMux` of the dev-mode branch of `main`. -/
def devRootMux (path : Str) : Destination :=
  if strings_HasPrefix path "/api/".toList then .translationAPI
  else if path == "/".toList || path == "/index.html".toList
      || strings_HasPrefix path "/pt".toList || strings_HasPrefix path "/sv".toList then
    .hydratedHTML
  else .devProxy

/-- The `rootMux` of the production branch of `main`.  `isFile path` stands
for `os.Stat(filepath.Join(distDir, filepath.Clean(path)))` succeeding on
something that is not a directory. -/
def prodRootMux (isFile : Str → Bool) (path : Str) : Destination :=
  if path == "/".toList || path == "/index.html".toList
      || strings_HasPrefix path "/pt/".toList || strings_HasPrefix path "/sv/".toList then
    .hydratedHTML
  else if strings_HasPrefix path "/api/".toList then .translationAPI
  else if isFile path then .staticFile
  else .notFound

end Main

/-! ## `internal/core/definitions.go` -/

namespace Core

/-- A value of Go type `interface{}` as `encoding/json` produces it.  A number
is kept as its literal text (the program never computes with one). -/
inductive JSONValue where
  | null
  | bool (b : Bool)
  | number (literal : Str)
  | string (s : Str)
  | array (items : List JSONValue)
  | object (fields : List (Str × JSONValue))

/-- Go `type Translations map[string]interface{}`.  `none` is the nil map,
`some kvs` a map holding the listed keys (the first entry of a key counts). -/
abbrev Translations := Option (List (Str × JSONValue))

/-- Go map indexing `translations[key]` with its presence flag; indexing a nil
map finds nothing. -/
def Translations.get (t : Translations) (key : Str) : Option JSONValue :=
  match t with
  | none => none
  | some kvs => kvs.lookup key

end Core

/-! ## `internal/services/translation_service.go` -/

namespace Services

open Core

/-- One entry of `os.ReadDir`. -/
structure DirEntry where
  Name : Str
  IsDir : Bool

/-- The locales directory as `LoadTranslations` sees it: `ReadDir` is
`os.ReadDir(localesDir)` (`none` when it fails) and `ReadFile name` is
`os.ReadFile(filepath.Join(localesDir, name))` (`none` when it fails). -/
structure LocalesDir where
  ReadDir : Option (List DirEntry)
  ReadFile : Str → Option Str

/-- The field `cache map[string]core.Translations`. -/
abbrev Cache := Str → Option Translations

/-- The map built by `NewFileTranslationService`. -/
def emptyCache : Cache := fun _ => none

/-- Go map assignment `cache[lang] = translations`. -/
def Cache.set (cache : Cache) (lang : Str) (translations : Translations) : Cache :=
  fun k => if k = lang then some translations else cache k

/-- The three errors `LoadTranslations` returns. -/
inductive LoadError where
  | readDir
  | readFile (name : Str)
  | parseJSON (name : Str)
  deriving DecidableEq

/-- The `for _, file := range files` loop of `LoadTranslations`, returning the
cache as the loop leaves it together with the error, if any.  `unmarshal` is
`json.Unmarshal(content, &translations)`, `none` when it reports an error. -/
def loadLoop (dir : LocalesDir) (unmarshal : Str → Option Translations) :
    List DirEntry → Cache → Cache × Option LoadError
  | [], cache => (cache, none)
  | file :: rest, cache =>
    if file.IsDir || !Strings.HasSuffix file.Name ".json".toList then
      loadLoop dir unmarshal rest cache
    else
      let lang := Strings.TrimSuffix file.Name ".json".toList
      match dir.ReadFile file.Name with
      | none => (cache, some (.readFile file.Name))
      | some content =>
        match unmarshal content with
        | none => (cache, some (.parseJSON file.Name))
        | some translations => loadLoop dir unmarshal rest (cache.set lang translations)

/-- `FileTranslationService.LoadTranslations`: the cache after the call and
the returned error (`none` for `nil`). -/
def LoadTranslations (dir : LocalesDir) (unmarshal : Str → Option Translations)
    (cache : Cache) : Cache × Option LoadError :=
  match dir.ReadDir with
  | none => (cache, some .readDir)
  | some files => loadLoop dir unmarshal files cache

/-- `FileTranslationService.GetTranslations`: `none` is the error
"translations not found for language". -/
def GetTranslations (cache : Cache) (lang : Str) : Option Translations :=
  cache lang

end Services

/-! ## `internal/handlers` -/

namespace Handlers

open Core Services

/-- What a handler writes to the `http.ResponseWriter`. -/
structure Response where
  status : Nat
  contentType : Str
  body : Str
  deriving DecidableEq

/-- Go `http.Error(w, msg, code)`. -/
def httpError (msg : Str) (code : Nat) : Response :=
  ⟨code, "text/plain; charset=utf-8".toList, msg ++ "\n".toList⟩

/-- `TranslationHandler.ServeHTTP`.  `langQuery` is
`r.URL.Query().Get("lang")` (empty when the parameter is missing) and
`marshal` is the JSON encoding of `encoding/json`; `Encoder.Encode` writes it
followed by a newline. -/
def TranslationHandler.ServeHTTP (cache : Cache) (marshal : Translations → Str)
    (langQuery : Str) : Response :=
  let lang := if langQuery == "".toList then "en".toList else langQuery
  let translations : Translations :=
    match GetTranslations cache lang with
    | some t => t
    | none =>
      -- Fallback to en
      match GetTranslations cache "en".toList with
      | some t => t
      | none => none
  ⟨StatusOK, "application/json".toList, marshal translations ++ "\n".toList⟩

/-- The text `fmt.Sprintf("<html lang=\"%s\">", lang)`. -/
def htmlLangTag (lang : Str) : Str :=
  "<html lang=\"".toList ++ lang ++ "\">".toList

/-- Step "1. Inject Lang" of `HTMLHandler.ServeHTTP`: the two consecutive
`strings.Replace(..., 1)` calls. -/
def injectLang (htmlStr lang : Str) : Str :=
  let s := Strings.Replace1 htmlStr "<html lang=\"en\">".toList (htmlLangTag lang)
  Strings.Replace1 s "<html>".toList (htmlLangTag lang)

/-- The text
`fmt.Sprintf("<script>window.__INITIAL_STATE__ = %s;</script>", jsonString)`. -/
def injection (jsonString : Str) : Str :=
  "<script>window.__INITIAL_STATE__ = ".toList ++ jsonString ++ ";</script>".toList

/-- Step "2. Inject Data" of `HTMLHandler.ServeHTTP`. -/
def injectData (htmlStr jsonString : Str) : Str :=
  if Strings.Contains htmlStr "</head>".toList then
    Strings.Replace1 htmlStr "</head>".toList (injection jsonString ++ "</head>".toList)
  else
    htmlStr ++ injection jsonString

/-- The text `fmt.Sprintf("<title>%s</title>", heroTitle)`. -/
def newTitleTag (heroTitle : Str) : Str :=
  "<title>".toList ++ heroTitle ++ "</title>".toList

/-- Step "3. Inject Title/Meta" of `HTMLHandler.ServeHTTP`; `none` is a
slice-bounds panic. -/
def injectTitle (htmlStr : Str) (translations : Translations) : Option Str :=
  match translations.get "hero_title".toList with
  | some (.string heroTitle) =>
    if Strings.Contains htmlStr "<title>".toList
        && Strings.Contains htmlStr "</title>".toList then
      let start := Strings.Index htmlStr "<title>".toList
      let stop := Strings.Index htmlStr "</title>".toList + 8
      match Strings.slice htmlStr 0 start, Strings.slice htmlStr stop htmlStr.length with
      | some before, some after => some (before ++ newTitleTag heroTitle ++ after)
      | _, _ => none
    else some htmlStr
  | _ => some htmlStr

/-- The "Replacement Logic" of `HTMLHandler.ServeHTTP`: the three injection
steps in the order the handler runs them. -/
def hydrate (htmlStr lang jsonString : Str) (translations : Translations) : Option Str :=
  injectTitle (injectData (injectLang htmlStr lang) jsonString) translations

/-- The outcome of `http.Get`: `none` is a non-nil `err`, `some (status, body)`
a response. -/
abbrev FetchResult := Option (Nat × Str)

/-- The base document of `HTMLHandler.ServeHTTP`, or the error response the
handler writes instead.  `origin p` is `http.Get(h.DevTarget + p)` and
`distIndex` is `os.ReadFile(h.DistDir + "/index.html")`. -/
def baseDocument (IsDev : Bool) (origin : Str → FetchResult) (distIndex : Option Str)
    (path : Str) : Except Response Str :=
  if IsDev then
    let first := origin path
    let resp :=
      match first with
      | none => origin "/".toList
      | some (status, body) =>
        if status ≠ 200 then origin "/".toList else some (status, body)
    match resp with
    | none => .error (httpError "Failed to connect to Vite Dev Server".toList StatusBadGateway)
    | some (_, body) => .ok body
  else
    match distIndex with
    | none => .error (httpError "index.html not found".toList StatusInternalServerError)
    | some content => .ok content

/-- `HTMLHandler.ServeHTTP`.  `ctxLang` is the string stored in the request
context under `CtxLanguageKey` (`none` when there is none); the result `none`
is a run-time panic, `some r` the response written. -/
def HTMLHandler.ServeHTTP (cache : Cache) (marshal : Translations → Str) (IsDev : Bool)
    (origin : Str → FetchResult) (distIndex : Option Str)
    (ctxLang : Option Str) (path : Str) : Option Response :=
  let lang := match ctxLang with
    | some l => l
    | none => "en".toList
  let translations : Translations :=
    match GetTranslations cache lang with
    | some t => t
    | none =>
      match GetTranslations cache "en".toList with
      | some t => t
      | none => none
  let jsonString := marshal translations
  match baseDocument IsDev origin distIndex path with
  | .error r => some r
  | .ok htmlStr =>
    match hydrate htmlStr lang jsonString translations with
    | none => none
    | some out => some ⟨StatusOK, "text/html".toList, out⟩

end Handlers

/-! ## Vocabulary of the statements

Nothing below is program code: these are the notions the theorems are stated
with, and the concrete inputs of the counterexamples. -/

namespace Strings

/-- A pattern that begins with `<` and has no other `<`. -/
def isTag (p : Str) : Bool :=
  match p with
  | [] => false
  | c :: ps => c == '<' && decide ('<' ∉ ps)

/-- Number of places of `s` at which `sub` occurs. -/
def countOcc (s sub : Str) : Nat :=
  match s with
  | [] => if sub.isPrefixOf [] then 1 else 0
  | c :: cs => (if sub.isPrefixOf (c :: cs) then 1 else 0) + countOcc cs sub

end Strings

namespace Handlers

/-- The text step "3. Inject Title/Meta" produces for the title `heroTitle`,
written with positions as natural numbers. -/
def titleSplice (htmlStr heroTitle : Str) : Str :=
  match Strings.firstOcc htmlStr "<title>".toList, Strings.firstOcc htmlStr "</title>".toList with
  | some i, some j => htmlStr.take i ++ newTitleTag heroTitle ++ htmlStr.drop (j + 8)
  | _, _ => htmlStr

/-- The three places of a base document that hydration rewrites. -/
inductive Anchor where
  | langTag
  | headClose
  | titleElem
  deriving DecidableEq

/-- The text of each anchor in the base document. -/
def Anchor.original : Anchor → Str
  | .langTag => "<html lang=\"en\">".toList
  | .headClose => "</head>".toList
  | .titleElem => "<title>Old</title>".toList

/-- The serialized dictionary and the dictionary of the round-trip property. -/
def novoJSON : Str := "\x7b\"hero_title\":\"Novo\"\x7d".toList

/-- The dictionary whose only entry is `hero_title`, with value `Novo`. -/
def novoDict : Core.Translations := some [("hero_title".toList, .string "Novo".toList)]

/-- The text expected in place of each anchor after hydration for `pt` with
`novoDict`. -/
def Anchor.hydrated : Anchor → Str
  | .langTag => "<html lang=\"pt\">".toList
  | .headClose => injection novoJSON ++ "</head>".toList
  | .titleElem => "<title>Novo</title>".toList

/-- A document cut into four stretches of text separated by three anchors, the
anchors written out by `f`. -/
def assemble (f : Anchor → Str) (t0 : Str) (a1 : Anchor) (t1 : Str) (a2 : Anchor)
    (t2 : Str) (a3 : Anchor) (t3 : Str) : Str :=
  t0 ++ f a1 ++ t1 ++ f a2 ++ t2 ++ f a3 ++ t3

/-- The part of the base document in front of anchor `x`. -/
def textBefore (x : Anchor) (t0 : Str) (a1 : Anchor) (t1 : Str) (a2 : Anchor)
    (t2 : Str) : Str :=
  if a1 = x then t0
  else if a2 = x then t0 ++ a1.original ++ t1
  else t0 ++ a1.original ++ t1 ++ a2.original ++ t2

end Handlers

namespace Services

/-- The way one directory entry makes the loop of `LoadTranslations` return
`err`: it is a `.json` file that cannot be read or whose content does not
parse. -/
def FailsAt (dir : LocalesDir) (unmarshal : Str → Option Core.Translations)
    (file : DirEntry) (err : LoadError) : Prop :=
  file.IsDir = false ∧ Strings.HasSuffix file.Name ".json".toList = true ∧
  ((dir.ReadFile file.Name = none ∧ err = .readFile file.Name) ∨
   (∃ content, dir.ReadFile file.Name = some content ∧ unmarshal content = none ∧
      err = .parseJSON file.Name))

/-- A locales directory with a good `en.json` listed before a `pt.json` that is
not JSON. -/
def brokenLocales : LocalesDir where
  ReadDir := some [⟨"en.json".toList, false⟩, ⟨"pt.json".toList, false⟩]
  ReadFile := fun name =>
    if name = "en.json".toList then some "\x7b\x7d".toList
    else if name = "pt.json".toList then some "oops".toList
    else none

/-- A stand-in for `json.Unmarshal` that accepts only the empty object. -/
def toyUnmarshal (content : Str) : Option Core.Translations :=
  if content = "\x7b\x7d".toList then some (some []) else none

end Services

namespace Handlers

/-- A dev origin that answers every path with a non-success status: 500 at the
root, 404 elsewhere. -/
def failingOrigin (p : Str) : FetchResult :=
  if p = "/".toList then some (500, "boom".toList) else some (404, "missing".toList)

end Handlers

/-! # Theorems -/

open Core Services Handlers Strings Middleware Main

set_option maxHeartbeats 4000000
set_option maxRecDepth 100000

/-! ## Lemmas on the string functions -/

theorem firstOcc_cons_skip (c : Char) (cs sub : Str)
    (h : sub.isPrefixOf (c :: cs) = false) :
    firstOcc (c :: cs) sub = (firstOcc cs sub).map (· + 1) := by
  rw [firstOcc, if_neg (by simp [h])]

theorem Replace1_cons_skip (c : Char) (cs sub new : Str)
    (h : sub.isPrefixOf (c :: cs) = false) :
    Replace1 (c :: cs) sub new = c :: Replace1 cs sub new := by
  rw [Replace1, if_neg (by simp [h])]

theorem Replace1_at_head (s sub new : Str) (h : sub.isPrefixOf s = true) :
    Replace1 s sub new = new ++ s.drop sub.length := by
  cases s <;> rw [Replace1, if_pos h]

theorem firstOcc_at_head (s sub : Str) (h : sub.isPrefixOf s = true) :
    firstOcc s sub = some 0 := by
  cases s <;> rw [firstOcc, if_pos h]

/-- The first occurrence of a pattern that occurs: where it is, and what
`Replace1` and `firstOcc` compute there. -/
theorem first_occurrence (sub new : Str) :
    ∀ s : Str, sub <:+: s →
      ∃ a b, s = a ++ sub ++ b ∧
        (∀ a' b', s = a' ++ sub ++ b' → a.length ≤ a'.length) ∧
        firstOcc s sub = some a.length ∧
        Replace1 s sub new = a ++ new ++ b := by
  intro s
  induction s with
  | nil =>
    intro h
    have hsub : sub = [] := List.eq_nil_of_infix_nil h
    subst hsub
    exact ⟨[], [], rfl, fun _ _ _ => Nat.zero_le _, by simp [firstOcc], by simp [Replace1]⟩
  | cons c cs ih =>
    intro h
    by_cases hp : sub.isPrefixOf (c :: cs) = true
    · obtain ⟨b, hb⟩ := List.isPrefixOf_iff_prefix.mp hp
      refine ⟨[], b, by simpa using hb.symm, fun _ _ _ => Nat.zero_le _,
        firstOcc_at_head _ _ hp, ?_⟩
      rw [Replace1_at_head _ _ _ hp, ← hb]
      simp
    · have hp' : sub.isPrefixOf (c :: cs) = false := Bool.eq_false_iff.mpr hp
      have hcs : sub <:+: cs := by
        rcases List.infix_cons_iff.mp h with h1 | h1
        · exact absurd (List.isPrefixOf_iff_prefix.mpr h1) hp
        · exact h1
      obtain ⟨a, b, hs, hmin, hocc, hrep⟩ := ih hcs
      refine ⟨c :: a, b, by rw [hs]; simp, ?_, ?_, ?_⟩
      · intro a' b' h'
        cases a' with
        | nil =>
          exfalso
          apply hp
          exact List.isPrefixOf_iff_prefix.mpr ⟨b', by simpa using h'.symm⟩
        | cons x a'' =>
          simp only [List.cons_append, List.cons.injEq] at h'
          have := hmin a'' b' (by simpa using h'.2)
          simpa using this
      · rw [firstOcc_cons_skip _ _ _ hp', hocc]
        rfl
      · rw [Replace1_cons_skip _ _ _ _ hp', hrep]
        simp

theorem firstOcc_none_of_absent (sub : Str) :
    ∀ s : Str, ¬ sub <:+: s → firstOcc s sub = none ∧ ∀ new, Replace1 s sub new = s := by
  intro s
  induction s with
  | nil =>
    intro h
    have hp : sub.isPrefixOf [] = false := by
      cases hb : sub.isPrefixOf []
      · rfl
      · exact absurd (List.isPrefixOf_iff_prefix.mp hb).isInfix h
    constructor
    · rw [firstOcc, if_neg (by simp [hp])]
    · intro new
      rw [Replace1, if_neg (by simp [hp])]
  | cons c cs ih =>
    intro h
    have hp : sub.isPrefixOf (c :: cs) = false := by
      cases hb : sub.isPrefixOf (c :: cs)
      · rfl
      · exact absurd (List.isPrefixOf_iff_prefix.mp hb).isInfix h
    have hcs : ¬ sub <:+: cs := fun h' => h (List.infix_cons_iff.mpr (Or.inr h'))
    obtain ⟨h1, h2⟩ := ih hcs
    constructor
    · rw [firstOcc_cons_skip _ _ _ hp, h1]
      rfl
    · intro new
      rw [Replace1_cons_skip _ _ _ _ hp, h2]

theorem Contains_iff_occurs (s sub : Str) : Contains s sub = true ↔ sub <:+: s := by
  constructor
  · intro h
    by_contra hn
    have := (firstOcc_none_of_absent sub s hn).1
    simp [Contains, Index, this] at h
  · intro h
    obtain ⟨a, b, _, _, hocc, _⟩ := first_occurrence sub [] s h
    simp [Contains, Index, hocc]


theorem isTag_iff (p : Str) : isTag p = true ↔ ∃ ps, p = '<' :: ps ∧ '<' ∉ ps := by
  cases p with
  | nil => simp [isTag]
  | cons c ps =>
    simp only [isTag, Bool.and_eq_true, beq_iff_eq, decide_eq_true_eq, List.cons.injEq]
    constructor
    · rintro ⟨rfl, h⟩
      exact ⟨ps, ⟨rfl, rfl⟩, h⟩
    · rintro ⟨qs, ⟨rfl, rfl⟩, h⟩
      exact ⟨rfl, h⟩

/-- A stretch without `<` that is a prefix of `w ++ '<' :: r` is a prefix of `w`. -/
theorem prefix_before_lt (ps : Str) (h : '<' ∉ ps) :
    ∀ (w r : Str), ps <+: w ++ '<' :: r → ps <+: w := by
  induction ps with
  | nil => intro w r _; exact List.nil_prefix
  | cons p ps ih =>
    intro w r hw
    have hp : p ≠ '<' := fun e => h (e ▸ List.mem_cons_self _ _)
    have hps : '<' ∉ ps := fun m => h (List.mem_cons_of_mem _ m)
    cases w with
    | nil =>
      simp only [List.nil_append, List.cons_prefix_cons] at hw
      exact absurd hw.1 hp
    | cons c w =>
      simp only [List.cons_append, List.cons_prefix_cons] at hw
      exact List.cons_prefix_cons.mpr ⟨hw.1, ih hps w r hw.2⟩

/-- An occurrence of a tag that starts before a `<` ends before it. -/
theorem tag_prefix_before_lt (p : Str) (hp : isTag p = true) (w r : Str)
    (h : p <+: w ++ '<' :: r) (hw : w ≠ []) : p <+: w := by
  obtain ⟨ps, rfl, hps⟩ := (isTag_iff p).mp hp
  cases w with
  | nil => exact absurd rfl hw
  | cons c w =>
    simp only [List.cons_append, List.cons_prefix_cons] at h
    exact List.cons_prefix_cons.mpr ⟨h.1, prefix_before_lt ps hps w r h.2⟩

theorem Replace1_cons (c : Char) (cs p new : Str) :
    Replace1 (c :: cs) p new
      = if p <+: c :: cs then new ++ (c :: cs).drop p.length else c :: Replace1 cs p new := by
  rw [Replace1]
  simp only [List.isPrefixOf_iff_prefix]

theorem firstOcc_cons (c : Char) (cs p : Str) :
    firstOcc (c :: cs) p
      = if p <+: c :: cs then some 0 else (firstOcc cs p).map (· + 1) := by
  rw [firstOcc]
  simp only [List.isPrefixOf_iff_prefix]

theorem Replace1_nil (p new : Str) :
    Replace1 [] p new = if p = [] then new else [] := by
  rw [Replace1]
  cases p <;> simp

/-- `Replace1` for a tag passes over a stretch of text that does not contain
the tag and is followed by `<`. -/
theorem Replace1_text (p : Str) (hp : isTag p = true) (new : Str) :
    ∀ (t r : Str), ¬ p <:+: t →
      Replace1 (t ++ '<' :: r) p new = t ++ Replace1 ('<' :: r) p new := by
  intro t
  induction t with
  | nil => intro r _; rfl
  | cons c t ih =>
    intro r ht
    have h1 : ¬ p <+: c :: (t ++ '<' :: r) := fun h =>
      ht (tag_prefix_before_lt p hp (c :: t) r h (List.cons_ne_nil _ _)).isInfix
    have h2 : ¬ p <:+: t := fun h => ht (List.infix_cons_iff.mpr (Or.inr h))
    rw [List.cons_append, Replace1_cons, if_neg h1, ih r h2]
    rfl

theorem firstOcc_text (p : Str) (hp : isTag p = true) :
    ∀ (t r : Str), ¬ p <:+: t →
      firstOcc (t ++ '<' :: r) p = (firstOcc ('<' :: r) p).map (· + t.length) := by
  intro t
  induction t with
  | nil => intro r _; simp
  | cons c t ih =>
    intro r ht
    have h1 : ¬ p <+: c :: (t ++ '<' :: r) := fun h =>
      ht (tag_prefix_before_lt p hp (c :: t) r h (List.cons_ne_nil _ _)).isInfix
    have h2 : ¬ p <:+: t := fun h => ht (List.infix_cons_iff.mpr (Or.inr h))
    rw [List.cons_append, firstOcc_cons, if_neg h1, ih r h2, Option.map_map]
    congr 1


theorem firstOcc_bound (p : Str) :
    ∀ (s : Str) (i : Nat), firstOcc s p = some i → i + p.length ≤ s.length := by
  intro s
  induction s with
  | nil =>
    intro i h
    rw [firstOcc] at h
    split at h
    · rename_i hp
      have : p = [] := by
        cases p with
        | nil => rfl
        | cons c cs => simp [List.isPrefixOf] at hp
      subst this
      simp at h
      simp [← h]
    · simp at h
  | cons c cs ih =>
    intro i h
    rw [firstOcc] at h
    split at h
    · rename_i hp
      have hle := (List.isPrefixOf_iff_prefix.mp hp).length_le
      simp at h
      subst h
      simpa using hle
    · cases hcs : firstOcc cs p with
      | none => simp [hcs] at h
      | some j =>
        simp [hcs] at h
        subst h
        have := ih j hcs
        simp only [List.length_cons]
        omega

theorem Index_of_some (s p : Str) (i : Nat) (h : firstOcc s p = some i) :
    Index s p = (i : Int) := by
  simp only [Index, h]

theorem Index_of_none (s p : Str) (h : firstOcc s p = none) : Index s p = -1 := by
  simp only [Index, h]

theorem Contains_of_some (s p : Str) (i : Nat) (h : firstOcc s p = some i) :
    Contains s p = true := by
  simp only [Contains, Index_of_some s p i h]
  simp

theorem Contains_of_none (s p : Str) (h : firstOcc s p = none) :
    Contains s p = false := by
  simp only [Contains, Index_of_none s p h]
  simp

theorem injectTitle_eq_titleSplice (s : Str) (d : Translations) (v : Str)
    (hd : d.get "hero_title".toList = some (.string v)) :
    injectTitle s d = some (titleSplice s v) := by
  unfold injectTitle titleSplice
  simp only [hd]
  cases ho : firstOcc s "<title>".toList with
  | none =>
    rw [Contains_of_none _ _ ho]
    rfl
  | some i =>
    cases hc : firstOcc s "</title>".toList with
    | none =>
      rw [Contains_of_none _ _ hc, Bool.and_false]
      rfl
    | some j =>
      have hi := firstOcc_bound _ s i ho
      have hj := firstOcc_bound _ s j hc
      simp only [String.toList, List.length_cons, List.length_nil] at hi hj
      have e1 : Strings.slice s 0 (i : Int) = some (s.take i) := by
        unfold Strings.slice
        rw [if_pos ⟨le_refl _, by omega, by omega⟩]
        simp
      have e2 : Strings.slice s ((j : Int) + 8) (s.length : Int) = some (s.drop (j + 8)) := by
        unfold Strings.slice
        rw [if_pos ⟨by omega, by omega, le_refl _⟩]
        have : ((j : Int) + 8).toNat = j + 8 := by omega
        simp [this]
      rw [Contains_of_some _ _ _ ho, Contains_of_some _ _ _ hc,
        Index_of_some _ _ _ ho, Index_of_some _ _ _ hc]
      simp only [Bool.and_self, if_true, e1, e2]

theorem infix_text (p : Str) (hp : isTag p = true) :
    ∀ (t r : Str), p <:+: t ++ '<' :: r ↔ p <:+: t ∨ p <:+: '<' :: r := by
  intro t r
  constructor
  · induction t with
    | nil => intro h; exact Or.inr h
    | cons c t ih =>
      intro h
      rw [List.cons_append] at h
      rcases List.infix_cons_iff.mp h with h1 | h1
      · exact Or.inl
          (tag_prefix_before_lt p hp (c :: t) r h1 (List.cons_ne_nil _ _)).isInfix
      · rcases ih h1 with h2 | h2
        · exact Or.inl (List.infix_cons_iff.mpr (Or.inr h2))
        · exact Or.inr h2
  · rintro (h | h)
    · exact h.trans (List.infix_append' [] t ('<' :: r))
    · exact h.trans (List.suffix_append t ('<' :: r)).isInfix

theorem titleSplice_cons (c : Char) (cs v : Str)
    (h1 : ¬ "<title>".toList <+: c :: cs) (h2 : ¬ "</title>".toList <+: c :: cs) :
    titleSplice (c :: cs) v = c :: titleSplice cs v := by
  unfold titleSplice
  rw [firstOcc_cons, if_neg h1, firstOcc_cons, if_neg h2]
  cases firstOcc cs "<title>".toList <;> cases firstOcc cs "</title>".toList <;> simp

theorem titleSplice_text (v : Str) :
    ∀ (t r : Str), ¬ "<title>".toList <:+: t → ¬ "</title>".toList <:+: t →
      titleSplice (t ++ '<' :: r) v = t ++ titleSplice ('<' :: r) v := by
  intro t
  induction t with
  | nil => intro r _ _; rfl
  | cons c t ih =>
    intro r h1 h2
    have a1 : ¬ "<title>".toList <+: c :: (t ++ '<' :: r) := fun h =>
      h1 (tag_prefix_before_lt _ (by decide) (c :: t) r h (List.cons_ne_nil _ _)).isInfix
    have a2 : ¬ "</title>".toList <+: c :: (t ++ '<' :: r) := fun h =>
      h2 (tag_prefix_before_lt _ (by decide) (c :: t) r h (List.cons_ne_nil _ _)).isInfix
    have b1 : ¬ "<title>".toList <:+: t := fun h => h1 (List.infix_cons_iff.mpr (Or.inr h))
    have b2 : ¬ "</title>".toList <:+: t := fun h => h2 (List.infix_cons_iff.mpr (Or.inr h))
    rw [List.cons_append, titleSplice_cons _ _ _ a1 a2, ih r b1 b2]
    rfl

theorem countOcc_cons (c : Char) (cs p : Str) :
    countOcc (c :: cs) p = (if p <+: c :: cs then 1 else 0) + countOcc cs p := by
  rw [countOcc]
  simp only [List.isPrefixOf_iff_prefix]

theorem countOcc_of_absent (p : Str) :
    ∀ s : Str, ¬ p <:+: s → countOcc s p = 0 := by
  intro s
  induction s with
  | nil =>
    intro h
    rw [countOcc, if_neg]
    intro hp
    exact h (List.isPrefixOf_iff_prefix.mp hp).isInfix
  | cons c cs ih =>
    intro h
    have h1 : ¬ p <+: c :: cs := fun hp => h hp.isInfix
    have h2 : ¬ p <:+: cs := fun hp => h (List.infix_cons_iff.mpr (Or.inr hp))
    rw [countOcc_cons, if_neg h1, ih h2]

theorem countOcc_text (p : Str) (hp : isTag p = true) :
    ∀ (t r : Str), ¬ p <:+: t → countOcc (t ++ '<' :: r) p = countOcc ('<' :: r) p := by
  intro t
  induction t with
  | nil => intro r _; rfl
  | cons c t ih =>
    intro r ht
    have h1 : ¬ p <+: c :: (t ++ '<' :: r) := fun h =>
      ht (tag_prefix_before_lt p hp (c :: t) r h (List.cons_ne_nil _ _)).isInfix
    have h2 : ¬ p <:+: t := fun h => ht (List.infix_cons_iff.mpr (Or.inr h))
    rw [List.cons_append, countOcc_cons, if_neg h1, ih r h2, Nat.zero_add]

/-! ## Middleware and routing -/

theorem HasPrefix_sv_not_pt (path : Str) (h : Strings.HasPrefix path "/sv".toList = true) :
    Strings.HasPrefix path "/pt".toList = false := by
  match path, h with
  | [], h => simp [Strings.HasPrefix] at h
  | [_], h => simp [Strings.HasPrefix] at h
  | [_, _], h => simp [Strings.HasPrefix] at h
  | a :: b :: c :: rest, h =>
    simp [Strings.HasPrefix] at h
    obtain ⟨rfl, rfl, rfl⟩ := h
    simp [Strings.HasPrefix, List.isPrefixOf]

/-- C1. For every request path that starts with `/pt`, every negotiation
function and every `Accept-Language` value, the middleware calls the next
handler with language `pt` and issues no redirect; for every path that starts
with `/sv` it calls it with `sv`.  The test is a plain string prefix, so a
path such as `/ptfoo` counts. -/
theorem LanguageDetectorMiddleware_path_language (negotiate : Str → Str) (path accept : Str) :
    (Strings.HasPrefix path "/pt".toList = true →
      LanguageDetectorMiddleware negotiate path accept = .next "pt".toList) ∧
    (Strings.HasPrefix path "/sv".toList = true →
      LanguageDetectorMiddleware negotiate path accept = .next "sv".toList) := by
  constructor
  · intro h
    simp only [LanguageDetectorMiddleware, h, if_true]
  · intro h
    have hpt := HasPrefix_sv_not_pt path h
    simp only [LanguageDetectorMiddleware, h, hpt, if_true]
    rfl

/-- Instances of C1: `/ptfoo` with a Swedish header, `/sv/` with a Portuguese one. -/
theorem LanguageDetectorMiddleware_path_language_witness :
    LanguageDetectorMiddleware (fun _ => "sv".toList) "/ptfoo".toList "sv-SE".toList
        = .next "pt".toList ∧
    LanguageDetectorMiddleware (fun _ => "pt".toList) "/sv/".toList "pt-PT".toList
        = .next "sv".toList :=
  ⟨(LanguageDetectorMiddleware_path_language _ "/ptfoo".toList _).1 (by decide),
   (LanguageDetectorMiddleware_path_language _ "/sv/".toList _).2 (by decide)⟩

/-- C2. With the negotiation a function from the header value to a base
subtag, and a path that starts with neither `/pt` nor `/sv`: the middleware
redirects exactly when the path is `/` or `/index.html` and the negotiated
subtag is `pt` or `sv`; the redirect has status 302 and target `/pt/` or
`/sv/` respectively, and being a redirect the next handler is not called.  In
every other case the next handler is called with language `en`. -/
theorem LanguageDetectorMiddleware_root_redirect (negotiate : Str → Str) (path accept : Str)
    (hpt : Strings.HasPrefix path "/pt".toList = false)
    (hsv : Strings.HasPrefix path "/sv".toList = false) :
    ((∃ status location,
        LanguageDetectorMiddleware negotiate path accept = .redirect status location) ↔
      ((path = "/".toList ∨ path = "/index.html".toList) ∧
        (negotiate accept = "pt".toList ∨ negotiate accept = "sv".toList))) ∧
    ((path = "/".toList ∨ path = "/index.html".toList) → negotiate accept = "pt".toList →
      LanguageDetectorMiddleware negotiate path accept = .redirect 302 "/pt/".toList) ∧
    ((path = "/".toList ∨ path = "/index.html".toList) → negotiate accept = "sv".toList →
      LanguageDetectorMiddleware negotiate path accept = .redirect 302 "/sv/".toList) ∧
    (¬ ((path = "/".toList ∨ path = "/index.html".toList) ∧
        (negotiate accept = "pt".toList ∨ negotiate accept = "sv".toList)) →
      LanguageDetectorMiddleware negotiate path accept = .next "en".toList) := by
  have key : LanguageDetectorMiddleware negotiate path accept =
      if path = "/".toList ∨ path = "/index.html".toList then
        if negotiate accept = "pt".toList then .redirect 302 "/pt/".toList
        else if negotiate accept = "sv".toList then .redirect 302 "/sv/".toList
        else .next "en".toList
      else .next "en".toList := by
    simp only [LanguageDetectorMiddleware, hpt, hsv, StatusFound, Bool.or_eq_true, beq_iff_eq]
    rfl
  rw [key]
  have hne : ¬ ("sv".toList = "pt".toList) := by decide
  by_cases hroot : path = "/".toList ∨ path = "/index.html".toList
  · rw [if_pos hroot]
    by_cases h1 : negotiate accept = "pt".toList
    · rw [if_pos h1]
      refine ⟨⟨fun _ => ⟨hroot, Or.inl h1⟩, fun _ => ⟨_, _, rfl⟩⟩, fun _ _ => rfl, ?_, ?_⟩
      · intro _ h2
        exact absurd (h2.symm.trans h1) hne
      · intro hn
        exact absurd ⟨hroot, Or.inl h1⟩ hn
    · rw [if_neg h1]
      by_cases h2 : negotiate accept = "sv".toList
      · rw [if_pos h2]
        refine ⟨⟨fun _ => ⟨hroot, Or.inr h2⟩, fun _ => ⟨_, _, rfl⟩⟩, ?_, fun _ _ => rfl, ?_⟩
        · intro _ h
          exact absurd h h1
        · intro hn
          exact absurd ⟨hroot, Or.inr h2⟩ hn
      · rw [if_neg h2]
        refine ⟨⟨?_, ?_⟩, ?_, ?_, fun _ => rfl⟩
        · rintro ⟨_, _, h⟩
          exact Outcome.noConfusion h
        · rintro ⟨_, h | h⟩
          · exact absurd h h1
          · exact absurd h h2
        · intro _ h
          exact absurd h h1
        · intro _ h
          exact absurd h h2
  · rw [if_neg hroot]
    refine ⟨⟨?_, ?_⟩, ?_, ?_, fun _ => rfl⟩
    · rintro ⟨_, _, h⟩
      exact Outcome.noConfusion h
    · rintro ⟨h, _⟩
      exact absurd h hroot
    · intro h
      exact absurd h hroot
    · intro h
      exact absurd h hroot

/-- An instance of C2: path `/` with a header that negotiates to `en`. -/
theorem LanguageDetectorMiddleware_root_redirect_witness :
    LanguageDetectorMiddleware (fun _ => "en".toList) "/".toList "fr-FR".toList
      = .next "en".toList :=
  (LanguageDetectorMiddleware_root_redirect (fun _ => "en".toList) "/".toList "fr-FR".toList
    (by decide) (by decide)).2.2.2 (by decide)

/-- C10, at its failing inputs.  The dev dispatcher sends `/pt` and `/ptfoo` to
the hydrated-HTML handler; the production dispatcher, which tests for the
prefixes `/pt/` and `/sv/`, sends neither of them there, whatever the static
directory holds. -/
theorem prodRootMux_bare_language_path :
    devRootMux "/pt".toList = .hydratedHTML ∧
    (∀ isFile, prodRootMux isFile "/pt".toList ≠ .hydratedHTML) ∧
    devRootMux "/ptfoo".toList = .hydratedHTML ∧
    (∀ isFile, prodRootMux isFile "/ptfoo".toList ≠ .hydratedHTML) := by
  refine ⟨by decide, ?_, by decide, ?_⟩
  · intro isFile
    unfold prodRootMux
    rw [if_neg (by decide), if_neg (by decide)]
    split <;> exact fun h => Destination.noConfusion h
  · intro isFile
    unfold prodRootMux
    rw [if_neg (by decide), if_neg (by decide)]
    split <;> exact fun h => Destination.noConfusion h

/-! ## Translation store and API -/

/-- C9. When an `en` dictionary is loaded and the `lang` query value is empty
or has no loaded dictionary, the translation handler answers exactly as it
does for `lang=en`: status 200 and, as body, the JSON encoding of the `en`
dictionary as `Encoder.Encode` writes it (the encoding and a newline). -/
theorem TranslationHandler_fallback_en (cache : Cache) (marshal : Translations → Str)
    (en : Translations) (langQuery : Str)
    (hen : GetTranslations cache "en".toList = some en)
    (hmiss : langQuery = "".toList ∨ GetTranslations cache langQuery = none) :
    TranslationHandler.ServeHTTP cache marshal langQuery
        = TranslationHandler.ServeHTTP cache marshal "en".toList ∧
    (TranslationHandler.ServeHTTP cache marshal langQuery).body
        = marshal en ++ "\n".toList ∧
    (TranslationHandler.ServeHTTP cache marshal langQuery).status = 200 := by
  have hen2 : TranslationHandler.ServeHTTP cache marshal "en".toList
      = ⟨StatusOK, "application/json".toList, marshal en ++ "\n".toList⟩ := by
    unfold TranslationHandler.ServeHTTP
    rw [if_neg (by decide)]
    simp only [hen]
  have hq : TranslationHandler.ServeHTTP cache marshal langQuery
      = ⟨StatusOK, "application/json".toList, marshal en ++ "\n".toList⟩ := by
    unfold TranslationHandler.ServeHTTP
    rcases hmiss with h | h
    · subst h
      rw [if_pos (by decide)]
      simp only [hen]
    · by_cases he : (langQuery == "".toList) = true
      · rw [if_pos he]
        simp only [hen]
      · rw [if_neg he]
        simp only [h, hen]
  rw [hq, hen2]
  exact ⟨rfl, rfl, rfl⟩

/-- An instance of C9: `lang=zz` against a store that holds only `en`. -/
theorem TranslationHandler_fallback_en_witness :
    TranslationHandler.ServeHTTP (emptyCache.set "en".toList (some [])) (fun _ => "\x7b\x7d".toList)
        "zz".toList
      = TranslationHandler.ServeHTTP (emptyCache.set "en".toList (some [])) (fun _ => "\x7b\x7d".toList)
        "en".toList :=
  (TranslationHandler_fallback_en (emptyCache.set "en".toList (some [])) (fun _ => "\x7b\x7d".toList)
    (some []) "zz".toList rfl (Or.inr rfl)).1

/-- In dev mode, when the first fetch is not a 200 answer, the base document is
whatever the retry against `/` returns: only a transport error of the retry
gives the 502 response. -/
theorem baseDocument_dev_retry (origin : Str → FetchResult) (distIndex : Option Str)
    (path : Str)
    (hfirst : origin path = none ∨ ∃ status body, origin path = some (status, body) ∧
      status ≠ 200) :
    baseDocument true origin distIndex path
      = match origin "/".toList with
        | none => .error (httpError "Failed to connect to Vite Dev Server".toList
            StatusBadGateway)
        | some (_, body) => .ok body := by
  unfold baseDocument
  rcases hfirst with h | ⟨status, body, h, hs⟩
  · simp only [h, if_true]
  · simp only [h, if_true, if_pos hs]

/-- C8, at its failing input.  In dev mode, with an origin that answers the
request path with 404 and the root with 500, the handler does not answer 502:
it hydrates the body of the 500 answer and sends it with status 200. -/
theorem HTMLHandler_dev_retry_status_unchecked :
    HTMLHandler.ServeHTTP emptyCache (fun _ => "null".toList) true failingOrigin none
        (some "pt".toList) "/pt/".toList
      = some ⟨200, "text/html".toList,
          "boom<script>window.__INITIAL_STATE__ = null;</script>".toList⟩ := by
  decide

/-- C3 fails as stated.  Loading a directory whose `en.json` is good and whose
`pt.json`, listed after it, is not JSON returns the parse error, and yet a
later `GetTranslations("en")` finds the dictionary of `en.json`, which the
cache before the call did not hold. -/
theorem LoadTranslations_partial_update_visible :
    (LoadTranslations brokenLocales toyUnmarshal emptyCache).2
        = some (.parseJSON "pt.json".toList) ∧
    GetTranslations emptyCache "en".toList = none ∧
    GetTranslations (LoadTranslations brokenLocales toyUnmarshal emptyCache).1 "en".toList
        = some (some []) := by
  refine ⟨by rfl, rfl, by rfl⟩

theorem loadLoop_error (dir : LocalesDir) (unmarshal : Str → Option Translations) :
    ∀ (files : List DirEntry) (cache : Cache) (err : LoadError),
      (loadLoop dir unmarshal files cache).2 = some err →
      ∃ done file rest, files = done ++ file :: rest ∧ FailsAt dir unmarshal file err ∧
        loadLoop dir unmarshal done cache = ((loadLoop dir unmarshal files cache).1, none) := by
  intro files
  induction files with
  | nil =>
    intro cache err h
    simp [loadLoop] at h
  | cons f fs ih =>
    intro cache err h
    by_cases hskip : (f.IsDir || !Strings.HasSuffix f.Name ".json".toList) = true
    · have hstep : ∀ l, loadLoop dir unmarshal (f :: l) cache = loadLoop dir unmarshal l cache := by
        intro l
        rw [loadLoop, if_pos hskip]
      rw [hstep] at h
      obtain ⟨done, file, rest, hfs, hfail, hdone⟩ := ih cache err h
      refine ⟨f :: done, file, rest, by rw [hfs]; rfl, hfail, ?_⟩
      rw [hstep, hstep, hdone]
    · have hjson : f.IsDir = false ∧ Strings.HasSuffix f.Name ".json".toList = true := by
        revert hskip
        cases f.IsDir <;> cases Strings.HasSuffix f.Name ".json".toList <;> simp
      cases hread : dir.ReadFile f.Name with
      | none =>
        have hstep : loadLoop dir unmarshal (f :: fs) cache
            = (cache, some (.readFile f.Name)) := by
          rw [loadLoop, if_neg hskip]
          simp only [hread]
        rw [hstep] at h ⊢
        refine ⟨[], f, fs, rfl, ⟨hjson.1, hjson.2, Or.inl ⟨hread, ?_⟩⟩, rfl⟩
        exact (Option.some.inj h).symm
      | some content =>
        cases hparse : unmarshal content with
        | none =>
          have hstep : loadLoop dir unmarshal (f :: fs) cache
              = (cache, some (.parseJSON f.Name)) := by
            rw [loadLoop, if_neg hskip]
            simp only [hread, hparse]
          rw [hstep] at h ⊢
          refine ⟨[], f, fs, rfl, ⟨hjson.1, hjson.2, Or.inr ⟨content, hread, hparse, ?_⟩⟩, rfl⟩
          exact (Option.some.inj h).symm
        | some translations =>
          have hstep : ∀ l, loadLoop dir unmarshal (f :: l) cache
              = loadLoop dir unmarshal l
                  (cache.set (Strings.TrimSuffix f.Name ".json".toList) translations) := by
            intro l
            rw [loadLoop, if_neg hskip]
            simp only [hread, hparse]
          rw [hstep] at h
          obtain ⟨done, file, rest, hfs, hfail, hdone⟩ := ih _ err h
          refine ⟨f :: done, file, rest, by rw [hfs]; rfl, hfail, ?_⟩
          rw [hstep, hstep, hdone]

/-- One step of the loop on an entry that is skipped. -/
theorem loadLoop_step_skip (dir : LocalesDir) (unmarshal : Str → Option Translations)
    (f : DirEntry) (fs : List DirEntry) (cache : Cache)
    (h : ¬ (f.IsDir = false ∧ Strings.HasSuffix f.Name ".json".toList = true)) :
    loadLoop dir unmarshal (f :: fs) cache = loadLoop dir unmarshal fs cache := by
  rw [loadLoop, if_pos]
  revert h
  cases f.IsDir <;> cases Strings.HasSuffix f.Name ".json".toList <;> simp

/-- One step of the loop on a `.json` file that reads and parses. -/
theorem loadLoop_step_store (dir : LocalesDir) (unmarshal : Str → Option Translations)
    (f : DirEntry) (fs : List DirEntry) (cache : Cache) (content : Str) (t : Translations)
    (h : f.IsDir = false ∧ Strings.HasSuffix f.Name ".json".toList = true)
    (hread : dir.ReadFile f.Name = some content) (hparse : unmarshal content = some t) :
    loadLoop dir unmarshal (f :: fs) cache
      = loadLoop dir unmarshal fs (cache.set (Strings.TrimSuffix f.Name ".json".toList) t) := by
  rw [loadLoop, if_neg]
  · simp only [hread, hparse]
  · rw [h.1, h.2]
    decide

/-- A run of the loop leaves alone every language that no `.json` file of the
listing names. -/
theorem loadLoop_untouched (dir : LocalesDir) (unmarshal : Str → Option Translations)
    (lang : Str) :
    ∀ (files : List DirEntry) (cache : Cache),
      (∀ f ∈ files, f.IsDir = false → Strings.HasSuffix f.Name ".json".toList = true →
        Strings.TrimSuffix f.Name ".json".toList ≠ lang) →
      (loadLoop dir unmarshal files cache).1 lang = cache lang := by
  intro files
  induction files with
  | nil => intro cache _; rfl
  | cons f fs ih =>
    intro cache hne
    have hfs : ∀ g ∈ fs, g.IsDir = false → Strings.HasSuffix g.Name ".json".toList = true →
        Strings.TrimSuffix g.Name ".json".toList ≠ lang :=
      fun g hg => hne g (List.mem_cons_of_mem _ hg)
    by_cases hj : f.IsDir = false ∧ Strings.HasSuffix f.Name ".json".toList = true
    · cases hread : dir.ReadFile f.Name with
      | none =>
        rw [loadLoop, if_neg (by rw [hj.1, hj.2]; decide)]
        simp only [hread]
      | some content =>
        cases hparse : unmarshal content with
        | none =>
          rw [loadLoop, if_neg (by rw [hj.1, hj.2]; decide)]
          simp only [hread, hparse]
        | some t =>
          rw [loadLoop_step_store dir unmarshal f fs cache content t hj hread hparse, ih _ hfs]
          have : lang ≠ Strings.TrimSuffix f.Name ".json".toList :=
            fun h => hne f (List.mem_cons_self _ _) hj.1 hj.2 h.symm
          simp only [Cache.set, if_neg this]
    · rw [loadLoop_step_skip dir unmarshal f fs cache hj]
      exact ih cache hfs

/-- A run of the loop that ends without error has read and parsed every
`.json` file of the listing, and holds for each the dictionary parsed from the
last file of that language. -/
theorem loadLoop_stores (dir : LocalesDir) (unmarshal : Str → Option Translations) :
    ∀ (files : List DirEntry) (cache : Cache),
      (loadLoop dir unmarshal files cache).2 = none →
      ∀ (pre : List DirEntry) (f : DirEntry) (post : List DirEntry),
        files = pre ++ f :: post →
        f.IsDir = false → Strings.HasSuffix f.Name ".json".toList = true →
        ∃ content t, dir.ReadFile f.Name = some content ∧ unmarshal content = some t ∧
          ((∀ g ∈ post, g.IsDir = false → Strings.HasSuffix g.Name ".json".toList = true →
              Strings.TrimSuffix g.Name ".json".toList
                ≠ Strings.TrimSuffix f.Name ".json".toList) →
            (loadLoop dir unmarshal files cache).1 (Strings.TrimSuffix f.Name ".json".toList)
              = some t) := by
  intro files
  induction files with
  | nil =>
    intro cache _ pre f post h
    cases pre <;> simp at h
  | cons x xs ih =>
    intro cache hok pre f post hsplit hd hs
    by_cases hj : x.IsDir = false ∧ Strings.HasSuffix x.Name ".json".toList = true
    · cases hread : dir.ReadFile x.Name with
      | none =>
        rw [loadLoop, if_neg (by rw [hj.1, hj.2]; decide)] at hok
        simp [hread] at hok
      | some content =>
        cases hparse : unmarshal content with
        | none =>
          rw [loadLoop, if_neg (by rw [hj.1, hj.2]; decide)] at hok
          simp [hread, hparse] at hok
        | some t =>
          have hstep := loadLoop_step_store dir unmarshal x xs cache content t hj hread hparse
          rw [hstep] at hok ⊢
          cases pre with
          | nil =>
            simp only [List.nil_append, List.cons.injEq] at hsplit
            obtain ⟨rfl, rfl⟩ := hsplit
            refine ⟨content, t, hread, hparse, ?_⟩
            intro hlast
            rw [loadLoop_untouched dir unmarshal _ xs _ hlast]
            simp only [Cache.set, if_true]
          | cons p pre =>
            simp only [List.cons_append, List.cons.injEq] at hsplit
            exact ih _ hok pre f post hsplit.2 hd hs
    · have hstep := loadLoop_step_skip dir unmarshal x xs cache hj
      rw [hstep] at hok ⊢
      cases pre with
      | nil =>
        simp only [List.nil_append, List.cons.injEq] at hsplit
        obtain ⟨rfl, rfl⟩ := hsplit
        exact absurd ⟨hd, hs⟩ hj
      | cons p pre =>
        simp only [List.cons_append, List.cons.injEq] at hsplit
        exact ih _ hok pre f post hsplit.2 hd hs

/-- C3, amended.  When `LoadTranslations` returns an error, either the
directory could not be read and the cache is untouched, or the listing is
`done ++ file :: rest` where `file` is the `.json` file that could not be read
or parsed, and the entries of the files before it are stored: every `.json`
file of `done` was read and parsed, a later `GetTranslations` for its language
returns the dictionary parsed from it (from the last such file, should several
name the language), and every language that no `.json` file of `done` names
keeps the entry it had before the call. -/
theorem LoadTranslations_error_keeps_earlier_entries (dir : LocalesDir)
    (unmarshal : Str → Option Translations) (cache : Cache) (err : LoadError)
    (h : (LoadTranslations dir unmarshal cache).2 = some err) :
    (dir.ReadDir = none ∧ err = .readDir ∧ (LoadTranslations dir unmarshal cache).1 = cache) ∨
    (∃ done file rest, dir.ReadDir = some (done ++ file :: rest) ∧
      FailsAt dir unmarshal file err ∧
      (∀ pre f post, done = pre ++ f :: post →
        f.IsDir = false → Strings.HasSuffix f.Name ".json".toList = true →
        ∃ content t, dir.ReadFile f.Name = some content ∧ unmarshal content = some t ∧
          ((∀ g ∈ post, g.IsDir = false → Strings.HasSuffix g.Name ".json".toList = true →
              Strings.TrimSuffix g.Name ".json".toList
                ≠ Strings.TrimSuffix f.Name ".json".toList) →
            GetTranslations (LoadTranslations dir unmarshal cache).1
                (Strings.TrimSuffix f.Name ".json".toList)
              = some t)) ∧
      (∀ lang,
        (∀ f ∈ done, f.IsDir = false → Strings.HasSuffix f.Name ".json".toList = true →
          Strings.TrimSuffix f.Name ".json".toList ≠ lang) →
        GetTranslations (LoadTranslations dir unmarshal cache).1 lang
          = GetTranslations cache lang)) := by
  cases hdir : dir.ReadDir with
  | none =>
    left
    simp only [LoadTranslations, hdir] at h ⊢
    exact ⟨trivial, (Option.some.inj h).symm, trivial⟩
  | some files =>
    right
    have hL : LoadTranslations dir unmarshal cache = loadLoop dir unmarshal files cache := by
      simp only [LoadTranslations, hdir]
    rw [hL] at h ⊢
    obtain ⟨done, file, rest, hfs, hfail, hdone⟩ := loadLoop_error dir unmarshal files cache err h
    have hok : (loadLoop dir unmarshal done cache).2 = none := by rw [hdone]
    have hcache : (loadLoop dir unmarshal files cache).1 = (loadLoop dir unmarshal done cache).1 := by
      rw [hdone]
    refine ⟨done, file, rest, by rw [hfs], hfail, ?_, ?_⟩
    · intro pre f post hsplit hd hs
      obtain ⟨content, t, hread, hparse, hlast⟩ :=
        loadLoop_stores dir unmarshal done cache hok pre f post hsplit hd hs
      refine ⟨content, t, hread, hparse, ?_⟩
      intro hne
      rw [GetTranslations, hcache]
      exact hlast hne
    · intro lang hne
      rw [GetTranslations, hcache]
      exact loadLoop_untouched dir unmarshal lang done cache hne

/-- An instance of the amended C3 on `brokenLocales`: the call fails at
`pt.json`, and `GetTranslations("en")` then returns the dictionary parsed from
`en.json`. -/
theorem LoadTranslations_error_keeps_earlier_entries_witness :
    (LoadTranslations brokenLocales toyUnmarshal emptyCache).2
        = some (.parseJSON "pt.json".toList) ∧
    GetTranslations (LoadTranslations brokenLocales toyUnmarshal emptyCache).1 "en".toList
        = some (some []) := by
  have herr : (LoadTranslations brokenLocales toyUnmarshal emptyCache).2
      = some (.parseJSON "pt.json".toList) := by rfl
  refine ⟨herr, ?_⟩
  rcases LoadTranslations_error_keeps_earlier_entries brokenLocales toyUnmarshal emptyCache
    (.parseJSON "pt.json".toList) herr with ⟨hnone, _⟩ | ⟨done, file, rest, hdir, hfail, hstored, _⟩
  · exact Option.noConfusion hnone
  · have hlist : [(⟨"en.json".toList, false⟩ : DirEntry), ⟨"pt.json".toList, false⟩]
        = done ++ file :: rest := Option.some.inj hdir
    cases done with
    | nil =>
      exfalso
      simp only [List.nil_append, List.cons.injEq] at hlist
      obtain ⟨rfl, _⟩ := hlist
      rcases hfail.2.2 with ⟨_, he⟩ | ⟨_, _, _, he⟩
      · exact LoadError.noConfusion he
      · exact absurd (LoadError.parseJSON.inj he) (by decide)
    | cons x done =>
      cases done with
      | nil =>
        simp only [List.cons_append, List.nil_append, List.cons.injEq] at hlist
        obtain ⟨rfl, _⟩ := hlist
        obtain ⟨content, t, hread, hparse, hget⟩ :=
          hstored [] _ [] rfl rfl (by decide)
        have hc : content = "\x7b\x7d".toList := (Option.some.inj hread).symm
        subst hc
        have ht : t = some [] := (Option.some.inj hparse).symm
        subst ht
        exact hget (fun g hg => absurd hg (List.not_mem_nil g))
      | cons y done =>
        exfalso
        simp only [List.cons_append, List.cons.injEq] at hlist
        have := hlist.2.2
        cases done <;> simp at this

/-! ## Hydration -/

/-- C7. With script the text `<script>window.__INITIAL_STATE__ = S;</script>`,
`S` the serialized dictionary: if the document contains `</head>`, step
"2. Inject Data" returns the document with script inserted immediately before
the first `</head>` and nothing else changed; if it contains none, it returns
the document followed by script.  The step is a total function: it cannot
fail. -/
theorem injectData_inserts_before_first_head_close (htmlStr jsonString : Str) :
    ("</head>".toList <:+: htmlStr →
      ∃ before after, htmlStr = before ++ "</head>".toList ++ after ∧
        (∀ before' after', htmlStr = before' ++ "</head>".toList ++ after' →
          before.length ≤ before'.length) ∧
        injectData htmlStr jsonString
          = before ++ "<script>window.__INITIAL_STATE__ = ".toList ++ jsonString
              ++ ";</script>".toList ++ "</head>".toList ++ after) ∧
    (¬ "</head>".toList <:+: htmlStr →
      injectData htmlStr jsonString
        = htmlStr ++ "<script>window.__INITIAL_STATE__ = ".toList ++ jsonString
            ++ ";</script>".toList) := by
  constructor
  · intro h
    obtain ⟨a, b, hs, hmin, _, hrep⟩ :=
      first_occurrence "</head>".toList (injection jsonString ++ "</head>".toList)
        htmlStr h
    refine ⟨a, b, hs, hmin, ?_⟩
    rw [injectData, if_pos ((Contains_iff_occurs _ _).mpr h), hrep, injection]
    simp only [List.append_assoc]
  · intro h
    have hc : ¬ (Strings.Contains htmlStr "</head>".toList = true) :=
      fun hc => h ((Contains_iff_occurs _ _).mp hc)
    rw [injectData, if_neg hc, injection]
    simp only [List.append_assoc]

/-- Instances of C7: a document with two `</head>`, where the script goes
before the first, and a document with none, where it goes at the end. -/
theorem injectData_inserts_before_first_head_close_witness :
    injectData "<head><meta></head><body></head></body>".toList "null".toList
      = "<head><meta><script>window.__INITIAL_STATE__ = null;</script></head><body></head></body>".toList ∧
    injectData "<body>hi</body>".toList "null".toList
      = "<body>hi</body><script>window.__INITIAL_STATE__ = null;</script>".toList := by
  refine ⟨?_, (injectData_inserts_before_first_head_close "<body>hi</body>".toList "null".toList).2 (by decide)⟩
  obtain ⟨before, after, hs, hmin, hres⟩ :=
    (injectData_inserts_before_first_head_close "<head><meta></head><body></head></body>".toList
      "null".toList).1 (by decide)
  have hle : before.length ≤ 12 :=
    hmin "<head><meta>".toList "<body></head></body>".toList (by decide)
  have hb : before = ("<head><meta></head><body></head></body>".toList).take before.length := by
    conv_rhs => rw [hs]
    simp
  rw [hres]
  generalize hn : before.length = n at hb hle
  interval_cases n <;> subst hb <;> simp at hs <;> subst hs <;> rfl

/-- C5, at its failing input.  On a document that holds `<html lang="en">` and,
further on, a bare `<html>`, step "1. Inject Lang" performs two replacements:
the fallback replacement runs although the first pattern was found. -/
theorem injectLang_replaces_both_patterns :
    injectLang "<html lang=\"en\"><body><!-- <html> --></body></html>".toList "pt".toList
      = "<html lang=\"pt\"><body><!-- <html lang=\"pt\"> --></body></html>".toList := by
  decide

/-- Step "3. Inject Title/Meta" never panics: under its guard both indices are
in range. -/
theorem injectTitle_total (s : Str) (d : Translations) : ∃ out, injectTitle s d = some out := by
  cases hd : d.get "hero_title".toList with
  | none => exact ⟨s, by simp only [injectTitle, hd]⟩
  | some j =>
    cases j with
    | string v => exact ⟨_, injectTitle_eq_titleSplice s d v hd⟩
    | null => exact ⟨s, by simp only [injectTitle, hd]⟩
    | bool b => exact ⟨s, by simp only [injectTitle, hd]⟩
    | number n => exact ⟨s, by simp only [injectTitle, hd]⟩
    | array xs => exact ⟨s, by simp only [injectTitle, hd]⟩
    | object kvs => exact ⟨s, by simp only [injectTitle, hd]⟩

/-- Where the first `<title>` comes before the first `</title>`, step
"3. Inject Title/Meta" replaces the span from the one to the end of the other
by the new title element. -/
theorem injectTitle_ordered (pre mid post v : Str) (d : Translations)
    (hd : d.get "hero_title".toList = some (.string v))
    (hpre1 : ¬ "<title>".toList <:+: pre) (hpre2 : ¬ "</title>".toList <:+: pre)
    (hmid : ¬ "</title>".toList <:+: mid) :
    injectTitle (pre ++ "<title>".toList ++ mid ++ "</title>".toList ++ post) d
      = some (pre ++ newTitleTag v ++ post) := by
  rw [injectTitle_eq_titleSplice _ _ _ hd]
  simp only [String.toList, List.append_assoc, List.cons_append, List.nil_append] at *
  rw [titleSplice_text v pre _ hpre1 hpre2]
  have h2 : firstOcc ('<' :: 't' :: 'i' :: 't' :: 'l' :: 'e' :: '>' ::
      (mid ++ '<' :: '/' :: 't' :: 'i' :: 't' :: 'l' :: 'e' :: '>' :: post))
      ['<', '/', 't', 'i', 't', 'l', 'e', '>'] = some (mid.length + 7) := by
    simp [firstOcc_cons, firstOcc_text, isTag, hmid]
  simp [titleSplice, h2, firstOcc_cons, newTitleTag]

/-- C6, at its failing input.  On a document whose first `</title>` stands
before its first `<title>`, step "3. Inject Title/Meta" removes nothing and
repeats the bytes between the two places: ` -->` occurs twice in the result
and the old title element is still there. -/
theorem injectTitle_closing_tag_first :
    injectTitle "<head><!-- </title> --><title>Old</title></head>".toList
        (some [("hero_title".toList, .string "v".toList)])
      = some "<head><!-- </title> --><title>v</title> --><title>Old</title></head>".toList := by
  decide

theorem hydrate_eq (s lang json : Str) (d : Translations) (v : Str)
    (hd : d.get "hero_title".toList = some (.string v)) :
    hydrate s lang json d = some (titleSplice (injectData (injectLang s lang) json) v) := by
  unfold hydrate
  exact injectTitle_eq_titleSplice _ _ _ hd

/-- The replacement logic of `HTMLHandler.ServeHTTP` on a document cut into four
stretches of text and the three anchors, in any order. -/
theorem hydrate_round_trip (t0 t1 t2 t3 : Str) (a1 a2 a3 : Anchor)
    (hdistinct : a1 ≠ a2 ∧ a1 ≠ a3 ∧ a2 ≠ a3)
    (hlang : ¬ "<html lang=\"en\">".toList <:+: textBefore .langTag t0 a1 t1 a2 t2)
    (hhead : ¬ "</head>".toList <:+: textBefore .headClose t0 a1 t1 a2 t2)
    (hopen : ¬ "<title>".toList <:+: textBefore .titleElem t0 a1 t1 a2 t2)
    (hclose : ¬ "</title>".toList <:+: textBefore .titleElem t0 a1 t1 a2 t2)
    (hbare : ¬ "<html>".toList <:+: assemble Anchor.original t0 a1 t1 a2 t2 a3 t3)
    (hpt : ¬ "<html lang=\"pt\">".toList <:+: assemble Anchor.original t0 a1 t1 a2 t2 a3 t3) :
    hydrate (assemble Anchor.original t0 a1 t1 a2 t2 a3 t3) "pt".toList novoJSON novoDict
      = some (assemble Anchor.hydrated t0 a1 t1 a2 t2 a3 t3) ∧
    countOcc (assemble Anchor.hydrated t0 a1 t1 a2 t2 a3 t3) "<html lang=\"pt\">".toList = 1 := by
  rw [hydrate_eq _ _ _ novoDict "Novo".toList rfl]
  have R := fun (p : Str) (s : Str) (h : ¬ p <:+: s) => (firstOcc_none_of_absent p s h).2
  cases a1 <;> cases a2 <;> cases a3 <;>
  first
  | exact absurd hdistinct (by decide)
  | (simp only [textBefore, assemble, Anchor.original, Anchor.hydrated, injection, novoJSON,
      String.toList, List.append_assoc, List.cons_append, List.nil_append, if_true, if_false,
      reduceCtorEq] at *
     simp [infix_text, isTag, List.infix_cons_iff] at hlang hhead hopen hclose hbare hpt
     refine ⟨?_, ?_⟩
     · simp only [injectLang, injectData, htmlLangTag, injection, String.toList,
         List.append_assoc, List.cons_append, List.nil_append]
       simp [Replace1_text, Replace1_cons, isTag, hlang, hbare, R]
       simp [Contains_iff_occurs, infix_text, isTag, List.infix_cons_iff, hhead]
       simp [Replace1_text, Replace1_cons, isTag, hhead]
       simp [titleSplice_text, titleSplice_cons, hopen, hclose]
       simp [titleSplice, firstOcc_cons, newTitleTag]
     · simp [countOcc_text, countOcc_cons, countOcc_of_absent, isTag, hpt])

/-- C4, amended.  Take a base document made of four stretches of text
separated, in any order, by `<html lang="en">`, `</head>` and
`<title>Old</title>`, in which these are the first `<html lang="en">`, the
first `</head>` and the first `<title>`, no `</title>` stands before that
`<title>`, and neither a bare `<html>` nor `<html lang="pt">` occurs.  Served
for language `pt` with the dictionary `hero_title = Novo`, whose JSON encoding
is `novoJSON`, the handler answers 200 with the same four stretches of text,
unchanged and in order, and in place of the anchors `<html lang="pt">`, the
state script followed by `</head>`, and `<title>Novo</title>`; and
`<html lang="pt">` occurs exactly once in that answer. -/
theorem HTMLHandler_round_trip (cache : Cache) (marshal : Translations → Str) (IsDev : Bool)
    (origin : Str → FetchResult) (distIndex : Option Str) (path : Str)
    (t0 t1 t2 t3 : Str) (a1 a2 a3 : Anchor)
    (hcache : GetTranslations cache "pt".toList = some novoDict)
    (hmarshal : marshal novoDict = novoJSON)
    (hbase : baseDocument IsDev origin distIndex path
      = .ok (assemble Anchor.original t0 a1 t1 a2 t2 a3 t3))
    (hdistinct : a1 ≠ a2 ∧ a1 ≠ a3 ∧ a2 ≠ a3)
    (hlang : ¬ "<html lang=\"en\">".toList <:+: textBefore .langTag t0 a1 t1 a2 t2)
    (hhead : ¬ "</head>".toList <:+: textBefore .headClose t0 a1 t1 a2 t2)
    (hopen : ¬ "<title>".toList <:+: textBefore .titleElem t0 a1 t1 a2 t2)
    (hclose : ¬ "</title>".toList <:+: textBefore .titleElem t0 a1 t1 a2 t2)
    (hbare : ¬ "<html>".toList <:+: assemble Anchor.original t0 a1 t1 a2 t2 a3 t3)
    (hpt : ¬ "<html lang=\"pt\">".toList <:+: assemble Anchor.original t0 a1 t1 a2 t2 a3 t3) :
    HTMLHandler.ServeHTTP cache marshal IsDev origin distIndex (some "pt".toList) path
      = some ⟨200, "text/html".toList, assemble Anchor.hydrated t0 a1 t1 a2 t2 a3 t3⟩ ∧
    countOcc (assemble Anchor.hydrated t0 a1 t1 a2 t2 a3 t3) "<html lang=\"pt\">".toList = 1 := by
  obtain ⟨h1, h2⟩ := hydrate_round_trip t0 t1 t2 t3 a1 a2 a3 hdistinct hlang hhead hopen
    hclose hbare hpt
  refine ⟨?_, h2⟩
  unfold HTMLHandler.ServeHTTP
  simp only [hcache, hmarshal, hbase, h1]
  rfl

/-- An instance of the amended C4: a small page served in production mode. -/
theorem HTMLHandler_round_trip_witness :
    HTMLHandler.ServeHTTP (emptyCache.set "pt".toList novoDict) (fun _ => novoJSON) false
        (fun _ => none)
        (some ("<!doctype html><html lang=\"en\"><head><meta charset=\"utf-8\">"
          ++ "<title>Old</title><link rel=\"icon\"></head><body><div id=\"root\">"
          ++ "</div></body></html>").toList)
        (some "pt".toList) "/pt/".toList
      = some ⟨200, "text/html".toList,
          ("<!doctype html><html lang=\"pt\"><head><meta charset=\"utf-8\">"
          ++ "<title>Novo</title><link rel=\"icon\">"
          ++ "<script>window.__INITIAL_STATE__ = \x7b\"hero_title\":\"Novo\"\x7d;</script>"
          ++ "</head><body><div id=\"root\"></div></body></html>").toList⟩ :=
  (HTMLHandler_round_trip (emptyCache.set "pt".toList novoDict) (fun _ => novoJSON) false
    (fun _ => none) _ "/pt/".toList
    "<!doctype html>".toList "<head><meta charset=\"utf-8\">".toList
    "<link rel=\"icon\">".toList "<body><div id=\"root\"></div></body></html>".toList
    .langTag .titleElem .headClose
    rfl rfl (by rfl) (by decide) (by decide) (by decide) (by decide) (by decide)
    (by decide) (by decide)).1

/-- C4 fails as stated.  A base document that contains `<html lang="en">`,
`</head>` and `<title>Old</title>` and, in a comment, `<html lang="pt">`
hydrates to a document in which `<html lang="pt">` occurs twice. -/
theorem hydrate_existing_pt_tag_counted_twice :
    "<html lang=\"en\">".toList <:+:
      "<html lang=\"en\"><head><title>Old</title></head><!-- <html lang=\"pt\"> -->".toList ∧
    "</head>".toList <:+:
      "<html lang=\"en\"><head><title>Old</title></head><!-- <html lang=\"pt\"> -->".toList ∧
    "<title>Old</title>".toList <:+:
      "<html lang=\"en\"><head><title>Old</title></head><!-- <html lang=\"pt\"> -->".toList ∧
    hydrate
        "<html lang=\"en\"><head><title>Old</title></head><!-- <html lang=\"pt\"> -->".toList
        "pt".toList novoJSON novoDict
      = some ("<html lang=\"pt\"><head><title>Novo</title>"
          ++ "<script>window.__INITIAL_STATE__ = \x7b\"hero_title\":\"Novo\"\x7d;</script>"
          ++ "</head><!-- <html lang=\"pt\"> -->").toList ∧
    countOcc ("<html lang=\"pt\"><head><title>Novo</title>"
          ++ "<script>window.__INITIAL_STATE__ = \x7b\"hero_title\":\"Novo\"\x7d;</script>"
          ++ "</head><!-- <html lang=\"pt\"> -->").toList "<html lang=\"pt\">".toList = 2 := by
  refine ⟨by decide, by decide, by decide, by decide, by decide⟩
